import Mathlib

/-!
Verification of the ethereum-forum conversational-assistant core:
the stream-event aggregator (`web/src/util/streamingContent.ts`) and the
branching-history engine used by the chat route
(`web/src/routes/chat/$chatId.tsx`, with the tree/path helpers of
`util/messageTree`).

Machine strings are Lean `String`; optional TypeScript fields are
`Option String`, with JavaScript truthiness (`undefined`, `null` and `""`
are falsy) made explicit.
-/

namespace EthereumForum

/-- Entry of the `ToolCallEntry` schema as `processStreamingData` consumes
it: a tool id plus optional `arguments`, `result` and `status` fields.
`status` ranges over strings such as "Starting", "Executing", "Success",
"Error"; its optionality mirrors the optional parameters of
`getHighestPriorityStatus`. -/
structure ToolCallEntry where
  tool_id : String
  arguments : Option String := none
  result : Option String := none
  status : Option String := none
deriving Repr, DecidableEq

/-- One element of the `StreamingResponse[]` array fed to
`processStreamingData`: an `entry_type` tag (the content case uses the
string "Content"), an optional `content` text and an optional
`tool_call`. -/
structure StreamingResponse where
  entry_type : String
  content : Option String := none
  tool_call : Option ToolCallEntry := none
deriving Repr, DecidableEq

/-- JavaScript truthiness of an optional string field: present and
non-empty. -/
def strTruthy : Option String → Bool
  | none => false
  | some s => s ≠ ""

/-- Evaluation of `x || y` on optional string fields, as JavaScript
evaluates it: `x` when `x` is truthy, otherwise `y` unchanged. -/
def strOrElse (x y : Option String) : Option String :=
  if strTruthy x then x else y

/-- Embedding of JavaScript `String.prototype.trim`: leading and trailing
whitespace characters removed. -/
def jsTrim (s : String) : String :=
  ⟨((s.data.dropWhile Char.isWhitespace).reverse.dropWhile Char.isWhitespace).reverse⟩

/-- Lookup in the `priorities` table of `getHighestPriorityStatus`,
composed with the `|| 1` fallback: Starting 1, Executing 2, Success 3,
Error 3, anything else 1. -/
def priorityLookup (s : String) : Nat :=
  if s = "Starting" then 1
  else if s = "Executing" then 2
  else if s = "Success" then 3
  else if s = "Error" then 3
  else 1

/-- Transcription of `getHighestPriorityStatus`: a falsy new status keeps
a truthy existing status and otherwise yields "Starting"; a truthy new
status against a falsy existing one is returned as-is; otherwise the
priorities are compared and the new status wins ties. -/
def getHighestPriorityStatus (newStatus existingStatus : Option String) : Option String :=
  if strTruthy newStatus = false then
    (if strTruthy existingStatus then existingStatus else some "Starting")
  else if strTruthy existingStatus = false then newStatus
  else
    let newPriority := priorityLookup (newStatus.getD "")
    let existingPriority := priorityLookup (existingStatus.getD "")
    if newPriority ≥ existingPriority then newStatus else existingStatus

/-- Tagged union `StreamingGroup = ContentGroup | ToolGroup` of the
source: a content group carries its accumulated text and its `index`, a
tool group carries its `toolCall` entry and its `index`. -/
inductive StreamingGroup where
  | content (text : String) (index : Nat)
  | tool (toolCall : ToolCallEntry) (index : Nat)
deriving Repr, DecidableEq

/-- Association-list reading of a JavaScript `Map`: first (unique) entry
for a key wins. -/
def lookupA {α : Type} : List (String × α) → String → Option α
  | [], _ => none
  | (k', v) :: rest, k => if k' = k then some v else lookupA rest k

/-- Association-list writing of a JavaScript `Map.set`: an existing key
keeps its position and gets the new value, a new key is appended (JS maps
preserve insertion order). -/
def mapSet {α : Type} : List (String × α) → String → α → List (String × α)
  | [], k, v => [(k, v)]
  | (k', v') :: rest, k, v =>
      if k' = k then (k, v) :: rest else (k', v') :: mapSet rest k v

/-- Loop state of `processStreamingData`: the `groups` accumulator, the
`toolCallsMap` and `toolCallPositions` maps, and the pending
`currentContentChunk` buffer. -/
structure AggState where
  groups : List StreamingGroup
  toolCallsMap : List (String × ToolCallEntry)
  toolCallPositions : List (String × Nat)
  currentContentChunk : String
deriving Repr, DecidableEq

/-- Initial loop state of `processStreamingData`. -/
def initState : AggState := ⟨[], [], [], ""⟩

/-- Flush condition of the content branch: `isLastEntry ||
nextIsNotContent`, where `nextIsNotContent` requires the next entry to
exist and not be of entry type "Content". -/
def isFlushPoint : Option StreamingResponse → Prop
  | none => True
  | some n => n.entry_type ≠ "Content"

instance (o : Option StreamingResponse) : Decidable (isFlushPoint o) :=
  match o with
  | none => isTrue trivial
  | some n => inferInstanceAs (Decidable (n.entry_type ≠ "Content"))

/-- Mutation `group.toolCall = updatedToolCall` performed on
`groups[position]`, with the guards of the source (`position !==
undefined && position < groups.length` and `group.type === 'tool'`). -/
def updateGroupAt (groups : List StreamingGroup) (position : Option Nat)
    (updated : ToolCallEntry) : List StreamingGroup :=
  match position with
  | none => groups
  | some p =>
      match groups[p]? with
      | some (StreamingGroup.tool _ idx) => groups.set p (StreamingGroup.tool updated idx)
      | some (StreamingGroup.content _ _) => groups
      | none => groups

/-- The `updatedToolCall` record built for a tool-call update: a spread of
the incoming `tool_call` with `arguments` and `result` falling back to the
existing entry when the incoming field is falsy, and the status merged by
`getHighestPriorityStatus`. -/
def mergedToolCall (tc : ToolCallEntry) (existing : Option ToolCallEntry) : ToolCallEntry :=
  { tc with
      arguments := strOrElse tc.arguments (existing.bind ToolCallEntry.arguments),
      result := strOrElse tc.result (existing.bind ToolCallEntry.result),
      status := getHighestPriorityStatus tc.status (existing.bind ToolCallEntry.status) }

/-- One iteration of the `for` loop of `processStreamingData`, processing
`response = data[i]` with `nextEntry = data[i + 1]`. The match on the
existing map entry transcribes the `if (!existing)` branch of the
source. -/
def processStep (s : AggState) (response : StreamingResponse)
    (nextEntry : Option StreamingResponse) : AggState :=
  if response.entry_type = "Content" ∧ strTruthy response.content = true then
    if isFlushPoint nextEntry then
      if jsTrim (s.currentContentChunk ++ response.content.getD "") ≠ "" then
        { s with
            groups := s.groups ++
              [StreamingGroup.content (s.currentContentChunk ++ response.content.getD "")
                s.groups.length],
            currentContentChunk := "" }
      else { s with currentContentChunk := s.currentContentChunk ++ response.content.getD "" }
    else { s with currentContentChunk := s.currentContentChunk ++ response.content.getD "" }
  else
    match response.tool_call with
    | some tc =>
        if response.entry_type ≠ "Content" then
          match lookupA s.toolCallsMap tc.tool_id with
          | none =>
              { s with
                  toolCallsMap := mapSet s.toolCallsMap tc.tool_id (mergedToolCall tc none),
                  toolCallPositions := mapSet s.toolCallPositions tc.tool_id s.groups.length,
                  groups := s.groups ++
                    [StreamingGroup.tool (mergedToolCall tc none) s.groups.length] }
          | some e =>
              { s with
                  toolCallsMap := mapSet s.toolCallsMap tc.tool_id (mergedToolCall tc (some e)),
                  groups := updateGroupAt s.groups (lookupA s.toolCallPositions tc.tool_id)
                    (mergedToolCall tc (some e)) }
        else s
    | none => s

/-- The indexed `for` loop of `processStreamingData`, with the lookahead
`data[i + 1]` supplied as the head of the remaining list. -/
def processLoop (s : AggState) : List StreamingResponse → AggState
  | [] => s
  | response :: rest => processLoop (processStep s response rest.head?) rest

/-- Transcription of `processStreamingData`: run the loop from the empty
state and return the accumulated groups. -/
def processStreamingData (data : List StreamingResponse) : List StreamingGroup :=
  (processLoop initState data).groups

/-- Concatenated text of the content groups of a group list, in output
order. -/
def contentTextOf : List StreamingGroup → String
  | [] => ""
  | StreamingGroup.content t _ :: rest => t ++ contentTextOf rest
  | StreamingGroup.tool _ _ :: rest => contentTextOf rest

/-- Concatenated text of the content-delta events of an event list, in
arrival order (the text of a `Content` event with a missing content field
is empty). -/
def deltasTextOf : List StreamingResponse → String
  | [] => ""
  | r :: rest =>
      (if r.entry_type = "Content" then r.content.getD "" else "") ++ deltasTextOf rest

/-- Residual content buffer once every event has been processed. -/
def leftoverBuffer (data : List StreamingResponse) : String :=
  (processLoop initState data).currentContentChunk

theorem contentTextOf_append (a b : List StreamingGroup) :
    contentTextOf (a ++ b) = contentTextOf a ++ contentTextOf b := by
  induction a with
  | nil => simp [contentTextOf, String.empty_append]
  | cons g rest ih =>
      cases g with
      | content t i => simp [contentTextOf, ih, String.append_assoc]
      | tool tc i => simp [contentTextOf, ih]

theorem contentTextOf_set_tool (gs : List StreamingGroup) (p : Nat) (tc tc' : ToolCallEntry)
    (idx idx' : Nat) (h : gs[p]? = some (StreamingGroup.tool tc idx)) :
    contentTextOf (gs.set p (StreamingGroup.tool tc' idx')) = contentTextOf gs := by
  induction gs generalizing p with
  | nil => simp at h
  | cons g rest ih =>
      cases p with
      | zero =>
          simp only [List.getElem?_cons_zero, Option.some.injEq] at h
          subst h
          simp [List.set, contentTextOf]
      | succ q =>
          simp only [List.getElem?_cons_succ] at h
          cases g with
          | content t i => simp [List.set, contentTextOf, ih q h]
          | tool tc0 i => simp [List.set, contentTextOf, ih q h]

theorem contentTextOf_updateGroupAt (gs : List StreamingGroup) (pos : Option Nat)
    (tc : ToolCallEntry) : contentTextOf (updateGroupAt gs pos tc) = contentTextOf gs := by
  cases pos with
  | none => rfl
  | some p =>
      cases h : gs[p]? with
      | none => simp [updateGroupAt, h]
      | some g =>
          cases g with
          | content t i => simp [updateGroupAt, h]
          | tool tc0 i =>
              simpa [updateGroupAt, h] using contentTextOf_set_tool gs p tc0 tc i i h

theorem lookupA_mapSet {α : Type} (m : List (String × α)) (k k' : String) (v : α) :
    lookupA (mapSet m k v) k' = if k = k' then some v else lookupA m k' := by
  induction m with
  | nil => simp [mapSet, lookupA]
  | cons p rest ih =>
      obtain ⟨k0, v0⟩ := p
      by_cases h0 : k0 = k
      · subst h0
        by_cases h1 : k0 = k'
        · subst h1; simp [mapSet, lookupA]
        · simp [mapSet, lookupA, h1]
      · by_cases h1 : k0 = k'
        · subst h1
          have h2 : ¬ k = k0 := fun h => h0 h.symm
          simp [mapSet, lookupA, h0, h2]
        · simp [mapSet, lookupA, h0, h1, ih]

/-- Text added by an event to the delta stream. -/
def deltaTextOf (r : StreamingResponse) : String :=
  if r.entry_type = "Content" then r.content.getD "" else ""

theorem processStep_text (s : AggState) (r : StreamingResponse)
    (next : Option StreamingResponse) :
    contentTextOf (processStep s r next).groups ++ (processStep s r next).currentContentChunk
      = contentTextOf s.groups ++ (s.currentContentChunk ++ deltaTextOf r) := by
  have hgetD : ¬ (r.entry_type = "Content" ∧ strTruthy r.content = true) →
      r.entry_type = "Content" → r.content.getD "" = "" := by
    intro hc h1
    cases hcc : r.content with
    | none => rfl
    | some c =>
        by_cases hce : c = ""
        · simp [hce]
        · exact absurd ⟨h1, by simp [hcc, strTruthy, hce]⟩ hc
  unfold processStep
  by_cases hc : r.entry_type = "Content" ∧ strTruthy r.content = true
  · rw [if_pos hc]
    by_cases hf : isFlushPoint next
    · rw [if_pos hf]
      by_cases hb : jsTrim (s.currentContentChunk ++ r.content.getD "") ≠ ""
      · rw [if_pos hb]
        simp [contentTextOf_append, contentTextOf, deltaTextOf, hc.1, String.append_empty,
          String.append_assoc]
      · rw [if_neg hb]
        simp [deltaTextOf, hc.1, String.append_assoc]
    · rw [if_neg hf]
      simp [deltaTextOf, hc.1, String.append_assoc]
  · rw [if_neg hc]
    cases htc : r.tool_call with
    | none =>
        by_cases h1 : r.entry_type = "Content"
        · simp [deltaTextOf, h1, hgetD hc h1, String.append_empty]
        · simp [deltaTextOf, h1, String.append_empty]
    | some tc =>
        dsimp only
        by_cases h1 : r.entry_type = "Content"
        · rw [if_neg (by simp [h1])]
          simp [deltaTextOf, h1, hgetD hc h1, String.append_empty]
        · rw [if_pos h1]
          cases hex : lookupA s.toolCallsMap tc.tool_id with
          | none =>
              simp [deltaTextOf, h1, contentTextOf_append, contentTextOf, String.append_empty]
          | some e =>
              simp [deltaTextOf, h1, contentTextOf_updateGroupAt, String.append_empty]

theorem processLoop_text (data : List StreamingResponse) : ∀ s : AggState,
    contentTextOf (processLoop s data).groups ++ (processLoop s data).currentContentChunk
      = contentTextOf s.groups ++ s.currentContentChunk ++ deltasTextOf data := by
  induction data with
  | nil => intro s; simp [processLoop, deltasTextOf, String.append_empty]
  | cons r rest ih =>
      intro s
      have hstep := processStep_text s r rest.head?
      calc contentTextOf (processLoop (processStep s r rest.head?) rest).groups
            ++ (processLoop (processStep s r rest.head?) rest).currentContentChunk
          = contentTextOf (processStep s r rest.head?).groups
            ++ (processStep s r rest.head?).currentContentChunk ++ deltasTextOf rest :=
            ih (processStep s r rest.head?)
        _ = contentTextOf s.groups ++ s.currentContentChunk ++ deltasTextOf (r :: rest) := by
            rw [hstep]
            simp [deltasTextOf, deltaTextOf, String.append_assoc]

/-- C1 (amended): the concatenation of the text of all content groups,
followed by the text still sitting in the buffer at end of stream, equals
the concatenation of the text of all content-delta events. The residual
buffer is the only text ever dropped, and it is dropped whether or not it
is purely whitespace. -/
theorem streamed_text_conservation (data : List StreamingResponse) :
    contentTextOf (processStreamingData data) ++ leftoverBuffer data = deltasTextOf data := by
  have h := processLoop_text data initState
  simpa [processStreamingData, leftoverBuffer, initState, contentTextOf,
    String.empty_append] using h

/-- C1 counterexample: after the events `[ContentDelta "t", ContentDelta ""]`
no group at all is produced, although the delta text "t" is not made of
whitespace: a non-blank buffer pending at end of stream is silently
dropped, so the claimed concatenation identity fails. -/
theorem streamed_text_counterexample :
    processStreamingData
        [⟨"Content", some "t", none⟩, ⟨"Content", some "", none⟩] = []
    ∧ deltasTextOf [⟨"Content", some "t", none⟩, ⟨"Content", some "", none⟩] = "t"
    ∧ jsTrim "t" ≠ "" := by
  refine ⟨by decide, by decide, by decide⟩

/-- C7: Scenario A, two updates of tool 1 followed by two content deltas,
yields exactly one tool group with the merged Success status at index 0
and one content group "Hello world" at index 1. -/
theorem scenarioA_output :
    processStreamingData
        [⟨"ToolCall", none, some ⟨"1", none, none, some "Starting"⟩⟩,
         ⟨"ToolCall", none, some ⟨"1", none, none, some "Success"⟩⟩,
         ⟨"Content", some "Hello ", none⟩,
         ⟨"Content", some "world", none⟩]
      = [StreamingGroup.tool ⟨"1", none, none, some "Success"⟩ 0,
         StreamingGroup.content "Hello world" 1] := by
  decide

/-- C10: a ContentDelta with empty text is a complete no-op for the
aggregator (first conjunct), so in `[ContentDelta t, ContentDelta "",
ToolCallUpdate tc]` with `t` non-blank, the buffered `t` is never flushed:
the output carries no content text at all (the tool group is emitted
alone) and `t` sits in the dropped residual buffer. -/
theorem empty_delta_noop (t : String) (tc : ToolCallEntry) (h : jsTrim t ≠ "") :
    (∀ (s : AggState) (next : Option StreamingResponse),
        processStep s ⟨"Content", some "", none⟩ next = s)
    ∧ contentTextOf (processStreamingData
        [⟨"Content", some t, none⟩, ⟨"Content", some "", none⟩,
         ⟨"ToolCall", none, some tc⟩]) = ""
    ∧ leftoverBuffer
        [⟨"Content", some t, none⟩, ⟨"Content", some "", none⟩,
         ⟨"ToolCall", none, some tc⟩] = t := by
  have ht : t ≠ "" := by
    intro h0
    exact h (by rw [h0]; rfl)
  have hnoop : ∀ (s : AggState) (next : Option StreamingResponse),
      processStep s ⟨"Content", some "", none⟩ next = s := by
    intro s next
    simp [processStep, strTruthy]
  have h1 : processStep initState ⟨"Content", some t, none⟩
      (some ⟨"Content", some "", none⟩) = { initState with currentContentChunk := "" ++ t } := by
    simp [processStep, strTruthy, ht, isFlushPoint, initState]
  have h3 : processStep ({ initState with currentContentChunk := "" ++ t } : AggState)
      ⟨"ToolCall", none, some tc⟩ none
      = ⟨[StreamingGroup.tool (mergedToolCall tc none) 0],
         [(tc.tool_id, mergedToolCall tc none)], [(tc.tool_id, 0)], "" ++ t⟩ := by
    simp [processStep, strTruthy, initState, lookupA, mapSet]
  have hrun : processLoop initState
      [⟨"Content", some t, none⟩, ⟨"Content", some "", none⟩, ⟨"ToolCall", none, some tc⟩]
      = ⟨[StreamingGroup.tool (mergedToolCall tc none) 0],
         [(tc.tool_id, mergedToolCall tc none)], [(tc.tool_id, 0)], "" ++ t⟩ := by
    simp only [processLoop, List.head?_cons, List.head?_nil]
    rw [h1, hnoop, h3]
  refine ⟨hnoop, ?_, ?_⟩
  · show contentTextOf (processLoop initState _).groups = ""
    rw [hrun]
    rfl
  · show (processLoop initState _).currentContentChunk = t
    rw [hrun]
    exact String.empty_append t

/-- C4 (amended): at a flush point where the accumulated buffer is blank
after trimming, no content group is produced, but the buffer is NOT reset:
the blank text is carried forward and can surface as a prefix of a later
content group. -/
theorem blank_buffer_carried (s : AggState) (r : StreamingResponse)
    (next : Option StreamingResponse) (hc : r.entry_type = "Content")
    (ht : strTruthy r.content = true) (hf : isFlushPoint next)
    (hb : jsTrim (s.currentContentChunk ++ r.content.getD "") = "") :
    (processStep s r next).groups = s.groups
    ∧ (processStep s r next).currentContentChunk
        = s.currentContentChunk ++ r.content.getD "" := by
  unfold processStep
  rw [if_pos ⟨hc, ht⟩, if_pos hf, if_neg (by simp [hb])]
  exact ⟨rfl, rfl⟩

/-- C4 counterexample: events `[ContentDelta " ", ToolCallUpdate t1,
ContentDelta "x"]` hit a flush point after " " with a blank buffer; the
buffer is not discarded, and the later content group reads " x" — it
contains the whitespace accumulated before that flush point. -/
theorem blank_buffer_counterexample :
    jsTrim " " = ""
    ∧ processStreamingData
        [⟨"Content", some " ", none⟩,
         ⟨"ToolCall", none, some ⟨"t1", none, none, some "Starting"⟩⟩,
         ⟨"Content", some "x", none⟩]
      = [StreamingGroup.tool ⟨"t1", none, none, some "Starting"⟩ 0,
         StreamingGroup.content " x" 1] := by
  refine ⟨by decide, by decide⟩

/-- C5 counterexample: an unrecognized new status against a known existing
status is not resolved to the existing status: "Bogus" has default
priority 1, ties keep the new value, so the merge of new "Bogus" with
existing "Starting" returns "Bogus". -/
theorem status_merge_counterexample :
    getHighestPriorityStatus (some "Bogus") (some "Starting") = some "Bogus"
    ∧ priorityLookup "Bogus" = 1
    ∧ some "Bogus" ≠ (some "Starting" : Option String) := by
  refine ⟨by decide, by decide, by decide⟩

/-- C5 (amended): a missing (falsy) new status keeps a truthy existing
status and otherwise defaults to Starting; a truthy new status against a
falsy existing one is taken as-is; when both are truthy — including an
unrecognized new status, which is assigned default priority 1 rather than
being replaced by the existing status — the higher-priority side wins and
ties keep the new one. The merge is a total function: no input is
rejected. -/
theorem status_merge_rules (n e : Option String) :
    (strTruthy n = false →
        getHighestPriorityStatus n e = (if strTruthy e then e else some "Starting"))
    ∧ (strTruthy n = true → strTruthy e = false → getHighestPriorityStatus n e = n)
    ∧ (strTruthy n = true → strTruthy e = true →
        getHighestPriorityStatus n e =
          (if priorityLookup (n.getD "") ≥ priorityLookup (e.getD "") then n else e)) := by
  refine ⟨fun h1 => ?_, fun h1 h2 => ?_, fun h1 h2 => ?_⟩
  · rw [getHighestPriorityStatus, if_pos h1]
  · rw [getHighestPriorityStatus, if_neg (by simp [h1]), if_pos h2]
  · rw [getHighestPriorityStatus, if_neg (by simp [h1]), if_neg (by simp [h2])]

/-- C6: applying a tool-call update for an already-known tool id merges
fields exactly as specified, with "present" read as JavaScript truthiness:
`arguments` and `result` keep the incoming value when it is truthy and
fall back to the stored one otherwise; in particular a populated stored
field is never regressed by an update lacking that field. -/
theorem tool_field_merge (s : AggState) (r : StreamingResponse)
    (next : Option StreamingResponse) (tc e : ToolCallEntry)
    (hr : r.tool_call = some tc) (hct : r.entry_type ≠ "Content")
    (hex : lookupA s.toolCallsMap tc.tool_id = some e) :
    (lookupA (processStep s r next).toolCallsMap tc.tool_id).bind ToolCallEntry.arguments
        = (if strTruthy tc.arguments then tc.arguments else e.arguments)
    ∧ (lookupA (processStep s r next).toolCallsMap tc.tool_id).bind ToolCallEntry.result
        = (if strTruthy tc.result then tc.result else e.result)
    ∧ (strTruthy e.arguments = true → strTruthy tc.arguments = false →
        (lookupA (processStep s r next).toolCallsMap tc.tool_id).bind ToolCallEntry.arguments
          = e.arguments)
    ∧ (strTruthy e.result = true → strTruthy tc.result = false →
        (lookupA (processStep s r next).toolCallsMap tc.tool_id).bind ToolCallEntry.result
          = e.result) := by
  have hstep : (processStep s r next).toolCallsMap
      = mapSet s.toolCallsMap tc.tool_id (mergedToolCall tc (some e)) := by
    unfold processStep
    rw [if_neg (by rintro ⟨h1, _⟩; exact hct h1), hr]
    dsimp only
    rw [if_pos hct, hex]
  rw [hstep, lookupA_mapSet, if_pos rfl]
  refine ⟨by simp [mergedToolCall, strOrElse], by simp [mergedToolCall, strOrElse],
    fun h1 h2 => ?_, fun h1 h2 => ?_⟩
  · simp [mergedToolCall, strOrElse, h2]
  · simp [mergedToolCall, strOrElse, h2]

/-- Numeric priority of an optional status value: the priorities table
with its fallback for unrecognized strings, and 0 for an absent status. -/
def statusPrioOpt : Option String → Nat
  | none => 0
  | some st => priorityLookup st

/-- Merged status currently stored in the tool-call map for a tool id. -/
def toolStatusIn (s : AggState) (tid : String) : Option String :=
  (lookupA s.toolCallsMap tid).bind ToolCallEntry.status

theorem priorityLookup_pos (s : String) : 1 ≤ priorityLookup s := by
  unfold priorityLookup
  repeat' split
  all_goals omega

theorem getHighest_prio_ge (n e : Option String) :
    statusPrioOpt e ≤ statusPrioOpt (getHighestPriorityStatus n e) := by
  have hfalsy : ∀ o : Option String, strTruthy o = false → statusPrioOpt o ≤ 1 := by
    intro o ho
    cases o with
    | none => exact Nat.zero_le 1
    | some s =>
        have hs : s = "" := by
          by_contra hne
          simp [strTruthy, hne] at ho
        subst hs
        simp [statusPrioOpt, priorityLookup]
  have htruthy : ∀ o : Option String, strTruthy o = true →
      statusPrioOpt o = priorityLookup (o.getD "") := by
    intro o ho
    cases o with
    | none => simp [strTruthy] at ho
    | some s => rfl
  unfold getHighestPriorityStatus
  by_cases hn : strTruthy n = false
  · rw [if_pos hn]
    by_cases he : strTruthy e = true
    · rw [if_pos he]
    · rw [if_neg he]
      calc statusPrioOpt e ≤ 1 := hfalsy e (by simpa using he)
        _ ≤ statusPrioOpt (some "Starting") := by simp [statusPrioOpt, priorityLookup]
  · rw [if_neg hn]
    have hn' : strTruthy n = true := by simpa using hn
    by_cases he : strTruthy e = false
    · rw [if_pos he]
      calc statusPrioOpt e ≤ 1 := hfalsy e he
        _ ≤ statusPrioOpt n := by
            rw [htruthy n hn']
            exact priorityLookup_pos _
    · rw [if_neg he]
      have he' : strTruthy e = true := by simpa using he
      show statusPrioOpt e ≤ statusPrioOpt
        (if priorityLookup (n.getD "") ≥ priorityLookup (e.getD "") then n else e)
      by_cases hcmp : priorityLookup (n.getD "") ≥ priorityLookup (e.getD "")
      · rw [if_pos hcmp, htruthy n hn', htruthy e he']
        exact hcmp
      · rw [if_neg hcmp]

theorem processStep_status_mono (s : AggState) (r : StreamingResponse)
    (next : Option StreamingResponse) (tid : String) :
    statusPrioOpt (toolStatusIn s tid)
      ≤ statusPrioOpt (toolStatusIn (processStep s r next) tid) := by
  unfold processStep
  by_cases hc : r.entry_type = "Content" ∧ strTruthy r.content = true
  · rw [if_pos hc]
    by_cases hf : isFlushPoint next
    · rw [if_pos hf]
      by_cases hb : jsTrim (s.currentContentChunk ++ r.content.getD "") ≠ ""
      · rw [if_pos hb]; exact le_refl _
      · rw [if_neg hb]; exact le_refl _
    · rw [if_neg hf]; exact le_refl _
  · rw [if_neg hc]
    cases htc : r.tool_call with
    | none => exact le_refl _
    | some tc =>
        dsimp only
        by_cases h1 : r.entry_type ≠ "Content"
        · rw [if_pos h1]
          cases hex : lookupA s.toolCallsMap tc.tool_id with
          | none =>
              by_cases hid : tc.tool_id = tid
              · subst hid
                unfold toolStatusIn
                dsimp only
                rw [lookupA_mapSet, if_pos rfl, hex]
                exact Nat.zero_le _
              · unfold toolStatusIn
                dsimp only
                rw [lookupA_mapSet, if_neg hid]
          | some e =>
              by_cases hid : tc.tool_id = tid
              · subst hid
                unfold toolStatusIn
                dsimp only
                rw [lookupA_mapSet, if_pos rfl, hex]
                simpa [mergedToolCall, Option.bind] using
                  getHighest_prio_ge tc.status e.status
              · unfold toolStatusIn
                dsimp only
                rw [lookupA_mapSet, if_neg hid]
        · rw [if_neg h1]

theorem processLoop_status_mono (data : List StreamingResponse) :
    ∀ (s : AggState) (tid : String),
    statusPrioOpt (toolStatusIn s tid)
      ≤ statusPrioOpt (toolStatusIn (processLoop s data) tid) := by
  induction data with
  | nil => intro s tid; exact le_refl _
  | cons r rest ih =>
      intro s tid
      exact le_trans (processStep_status_mono s r rest.head? tid) (ih _ tid)

/-- C3: the priority of the merged status stored for a tool id never
decreases as further events are consumed, and once the stored status is
Success or Error it can never become Executing or Starting again. -/
theorem tool_status_monotonic (s : AggState) (data : List StreamingResponse) (tid : String) :
    statusPrioOpt (toolStatusIn s tid)
      ≤ statusPrioOpt (toolStatusIn (processLoop s data) tid)
    ∧ (toolStatusIn s tid = some "Success" ∨ toolStatusIn s tid = some "Error" →
        toolStatusIn (processLoop s data) tid ≠ some "Executing"
        ∧ toolStatusIn (processLoop s data) tid ≠ some "Starting") := by
  refine ⟨processLoop_status_mono data s tid, fun hfin => ?_⟩
  have h3 : 3 ≤ statusPrioOpt (toolStatusIn s tid) := by
    rcases hfin with h | h
    · rw [h]; decide
    · rw [h]; decide
  have hge := le_trans h3 (processLoop_status_mono data s tid)
  constructor
  · intro hEq
    rw [hEq] at hge
    exact absurd hge (by decide)
  · intro hEq
    rw [hEq] at hge
    exact absurd hge (by decide)

/-- Witness for C3: a stored Success entry for tool "1" followed by a
late Starting update keeps its priority and never shows Executing or
Starting again. -/
theorem tool_status_monotonic_witness :
    statusPrioOpt (toolStatusIn ⟨[], [("1", ⟨"1", none, none, some "Success"⟩)], [("1", 0)], ""⟩ "1")
      ≤ statusPrioOpt (toolStatusIn (processLoop
          ⟨[], [("1", ⟨"1", none, none, some "Success"⟩)], [("1", 0)], ""⟩
          [⟨"ToolCall", none, some ⟨"1", none, none, some "Starting"⟩⟩]) "1")
    ∧ toolStatusIn (processLoop
          ⟨[], [("1", ⟨"1", none, none, some "Success"⟩)], [("1", 0)], ""⟩
          [⟨"ToolCall", none, some ⟨"1", none, none, some "Starting"⟩⟩]) "1"
        ≠ some "Executing"
    ∧ toolStatusIn (processLoop
          ⟨[], [("1", ⟨"1", none, none, some "Success"⟩)], [("1", 0)], ""⟩
          [⟨"ToolCall", none, some ⟨"1", none, none, some "Starting"⟩⟩]) "1"
        ≠ some "Starting" :=
  ⟨(tool_status_monotonic ⟨[], [("1", ⟨"1", none, none, some "Success"⟩)], [("1", 0)], ""⟩
      [⟨"ToolCall", none, some ⟨"1", none, none, some "Starting"⟩⟩] "1").1,
   (tool_status_monotonic ⟨[], [("1", ⟨"1", none, none, some "Success"⟩)], [("1", 0)], ""⟩
      [⟨"ToolCall", none, some ⟨"1", none, none, some "Starting"⟩⟩] "1").2
      (Or.inl (by decide)) |>.1,
   (tool_status_monotonic ⟨[], [("1", ⟨"1", none, none, some "Success"⟩)], [("1", 0)], ""⟩
      [⟨"ToolCall", none, some ⟨"1", none, none, some "Starting"⟩⟩] "1").2
      (Or.inl (by decide)) |>.2⟩

/-- Witness for C10 at t = "Hello": the tool group is emitted alone and
the non-blank "Hello" stays in the dropped buffer. -/
theorem empty_delta_noop_witness :
    jsTrim "Hello" ≠ ""
    ∧ contentTextOf (processStreamingData
        [⟨"Content", some "Hello", none⟩, ⟨"Content", some "", none⟩,
         ⟨"ToolCall", none, some ⟨"1", none, none, some "Starting"⟩⟩]) = ""
    ∧ leftoverBuffer
        [⟨"Content", some "Hello", none⟩, ⟨"Content", some "", none⟩,
         ⟨"ToolCall", none, some ⟨"1", none, none, some "Starting"⟩⟩] = "Hello" :=
  ⟨by decide,
   (empty_delta_noop "Hello" ⟨"1", none, none, some "Starting"⟩ (by decide)).2.1,
   (empty_delta_noop "Hello" ⟨"1", none, none, some "Starting"⟩ (by decide)).2.2⟩

/-- Witness for the amended C4: flushing a lone whitespace delta produces
no group and keeps " " in the buffer. -/
theorem blank_buffer_carried_witness :
    strTruthy (some " ") = true
    ∧ jsTrim ("" ++ " ") = ""
    ∧ (processStep initState ⟨"Content", some " ", none⟩ none).groups = initState.groups
    ∧ (processStep initState ⟨"Content", some " ", none⟩ none).currentContentChunk
        = initState.currentContentChunk ++ (some " ").getD "" :=
  ⟨by decide, by decide,
   (blank_buffer_carried initState ⟨"Content", some " ", none⟩ none rfl (by decide)
      trivial (by decide)).1,
   (blank_buffer_carried initState ⟨"Content", some " ", none⟩ none rfl (by decide)
      trivial (by decide)).2⟩

/-- Witness for the amended C5: merging a truthy Success over a truthy
Executing follows the priority comparison. -/
theorem status_merge_rules_witness :
    strTruthy (some "Success") = true
    ∧ strTruthy (some "Executing") = true
    ∧ getHighestPriorityStatus (some "Success") (some "Executing")
        = (if priorityLookup ((some "Success").getD "")
              ≥ priorityLookup ((some "Executing").getD "")
           then some "Success" else some "Executing") :=
  ⟨by decide, by decide,
   (status_merge_rules (some "Success") (some "Executing")).2.2 (by decide) (by decide)⟩

/-- Witness for C6: an update without arguments but with a result, applied
to an entry holding arguments, keeps both populated fields. -/
theorem tool_field_merge_witness :
    lookupA (⟨[StreamingGroup.tool ⟨"1", some "args", none, some "Starting"⟩ 0],
        [("1", ⟨"1", some "args", none, some "Starting"⟩)], [("1", 0)], ""⟩ : AggState).toolCallsMap
        ("1" : String) = some ⟨"1", some "args", none, some "Starting"⟩
    ∧ (lookupA (processStep
        ⟨[StreamingGroup.tool ⟨"1", some "args", none, some "Starting"⟩ 0],
         [("1", ⟨"1", some "args", none, some "Starting"⟩)], [("1", 0)], ""⟩
        ⟨"ToolCall", none, some ⟨"1", none, some "res", some "Success"⟩⟩
        none).toolCallsMap "1").bind ToolCallEntry.arguments = some "args"
    ∧ (lookupA (processStep
        ⟨[StreamingGroup.tool ⟨"1", some "args", none, some "Starting"⟩ 0],
         [("1", ⟨"1", some "args", none, some "Starting"⟩)], [("1", 0)], ""⟩
        ⟨"ToolCall", none, some ⟨"1", none, some "res", some "Success"⟩⟩
        none).toolCallsMap "1").bind ToolCallEntry.result = some "res" := by
  refine ⟨by decide, ?_, ?_⟩
  · have := (tool_field_merge
      ⟨[StreamingGroup.tool ⟨"1", some "args", none, some "Starting"⟩ 0],
       [("1", ⟨"1", some "args", none, some "Starting"⟩)], [("1", 0)], ""⟩
      ⟨"ToolCall", none, some ⟨"1", none, some "res", some "Success"⟩⟩
      none ⟨"1", none, some "res", some "Success"⟩ ⟨"1", some "args", none, some "Starting"⟩
      rfl (by decide) (by decide)).2.2.1 (by decide) (by decide)
    simpa using this
  · have := (tool_field_merge
      ⟨[StreamingGroup.tool ⟨"1", some "args", none, some "Starting"⟩ 0],
       [("1", ⟨"1", some "args", none, some "Starting"⟩)], [("1", 0)], ""⟩
      ⟨"ToolCall", none, some ⟨"1", none, some "res", some "Success"⟩⟩
      none ⟨"1", none, some "res", some "Success"⟩ ⟨"1", some "args", none, some "Starting"⟩
      rfl (by decide) (by decide)).2.1
    simpa using this

/-- Tool ids of the tool groups of a group list, in output order. -/
def toolIdsOf : List StreamingGroup → List String
  | [] => []
  | StreamingGroup.content _ _ :: rest => toolIdsOf rest
  | StreamingGroup.tool tc _ :: rest => tc.tool_id :: toolIdsOf rest

/-- Keys of an association-list map, in insertion order. -/
def mapKeys {α : Type} : List (String × α) → List String
  | [] => []
  | (k, _) :: rest => k :: mapKeys rest

/-- Tool id carried by an event that reaches the tool branch of the loop:
a non-Content event with a tool_call. -/
def toolEventId (r : StreamingResponse) : Option String :=
  if r.entry_type = "Content" then none else r.tool_call.map ToolCallEntry.tool_id

/-- Accumulate a key, keeping only its first appearance. -/
def insertNewKey (acc : List String) (k : String) : List String :=
  if k ∈ acc then acc else acc ++ [k]

/-- Distinct elements of a list in order of first appearance. -/
def firstOccurrences (l : List String) : List String := l.foldl insertNewKey []

/-- Identity of a group: its constructor, its text or tool id, and its
index. In-place tool-call updates preserve it. -/
def groupShape : StreamingGroup → Bool × String × Nat
  | StreamingGroup.content t i => (false, t, i)
  | StreamingGroup.tool tc i => (true, tc.tool_id, i)

/-- A recorded tool position is coherent: the map holds an entry for the
key, the group list holds the matching tool group at that position, and
the entry's tool id is the key. -/
def PosOk (s : AggState) (kp : String × Nat) : Prop :=
  ∃ e, lookupA s.toolCallsMap kp.1 = some e
    ∧ s.groups[kp.2]? = some (StreamingGroup.tool e kp.2)
    ∧ e.tool_id = kp.1

/-- Loop invariant of `processStreamingData`: positions are coherent, the
tool ids of the groups equal the map keys in order, both maps share their
keys, and the keys are distinct. -/
def GoodState (s : AggState) : Prop :=
  (∀ kp ∈ s.toolCallPositions, PosOk s kp)
  ∧ toolIdsOf s.groups = mapKeys s.toolCallsMap
  ∧ mapKeys s.toolCallPositions = mapKeys s.toolCallsMap
  ∧ (mapKeys s.toolCallPositions).Nodup

theorem getElemOpt_isSome_iff {α : Type} (l : List α) (i : Nat) :
    l[i]?.isSome ↔ i < l.length := by
  constructor
  · intro hs
    by_contra hlt
    rw [List.getElem?_eq_none (Nat.le_of_not_lt hlt)] at hs
    simp at hs
  · intro hlt
    rw [List.getElem?_eq_getElem hlt]
    rfl

theorem getElemOpt_append_left {α : Type} (l1 l2 : List α) (i : Nat) (h : i < l1.length) :
    (l1 ++ l2)[i]? = l1[i]? := by
  rw [List.getElem?_append]
  simp [h]

theorem mapKeys_append {α : Type} (a b : List (String × α)) :
    mapKeys (a ++ b) = mapKeys a ++ mapKeys b := by
  induction a with
  | nil => simp [mapKeys]
  | cons p rest ih =>
      obtain ⟨k, v⟩ := p
      simp [mapKeys, ih]

theorem lookupA_isSome_iff {α : Type} (m : List (String × α)) (k : String) :
    (lookupA m k).isSome ↔ k ∈ mapKeys m := by
  induction m with
  | nil => simp [lookupA, mapKeys]
  | cons p rest ih =>
      obtain ⟨k0, v0⟩ := p
      by_cases h : k0 = k
      · subst h
        simp [lookupA, mapKeys]
      · have h' : ¬ (k = k0) := fun hh => h hh.symm
        simp [lookupA, mapKeys, h, h', ih]

theorem mapSet_eq_append {α : Type} (m : List (String × α)) (k : String) (v : α)
    (h : lookupA m k = none) : mapSet m k v = m ++ [(k, v)] := by
  induction m with
  | nil => rfl
  | cons p rest ih =>
      obtain ⟨k0, v0⟩ := p
      by_cases h0 : k0 = k
      · rw [lookupA, if_pos h0] at h
        exact absurd h (by simp)
      · rw [lookupA, if_neg h0] at h
        rw [mapSet, if_neg h0, ih h]
        simp

theorem mapKeys_mapSet_some {α : Type} (m : List (String × α)) (k : String) (v w : α)
    (h : lookupA m k = some w) : mapKeys (mapSet m k v) = mapKeys m := by
  induction m with
  | nil => simp [lookupA] at h
  | cons p rest ih =>
      obtain ⟨k0, v0⟩ := p
      by_cases h0 : k0 = k
      · subst h0
        simp [mapSet, mapKeys]
      · rw [lookupA, if_neg h0] at h
        simp [mapSet, mapKeys, h0, ih h]

theorem lookupA_mem {α : Type} (m : List (String × α)) (k : String) (v : α)
    (h : lookupA m k = some v) : (k, v) ∈ m := by
  induction m with
  | nil => simp [lookupA] at h
  | cons p rest ih =>
      obtain ⟨k0, v0⟩ := p
      by_cases h0 : k0 = k
      · subst h0
        rw [lookupA, if_pos rfl] at h
        simp only [Option.some.injEq] at h
        simp [h]
      · rw [lookupA, if_neg h0] at h
        exact List.mem_cons_of_mem _ (ih h)

theorem mem_mapKeys_of_mem {α : Type} (m : List (String × α)) (k : String) (v : α)
    (h : (k, v) ∈ m) : k ∈ mapKeys m := by
  induction m with
  | nil => simp at h
  | cons p rest ih =>
      obtain ⟨k0, v0⟩ := p
      rcases List.mem_cons.mp h with h | h
      · have h1 : k = k0 := congrArg Prod.fst h
        simp [mapKeys, h1]
      · simp [mapKeys, ih h]

theorem lookupA_eq_of_mem_nodup {α : Type} (m : List (String × α)) (k : String) (v : α)
    (hnd : (mapKeys m).Nodup) (h : (k, v) ∈ m) : lookupA m k = some v := by
  induction m with
  | nil => simp at h
  | cons p rest ih =>
      obtain ⟨k0, v0⟩ := p
      rw [List.mem_cons] at h
      have hnd0 : k0 ∉ mapKeys rest :=
        (List.nodup_cons.mp (by simpa [mapKeys] using hnd)).1
      have hnd' : (mapKeys rest).Nodup :=
        (List.nodup_cons.mp (by simpa [mapKeys] using hnd)).2
      rcases h with h | h
      · have h1 : k = k0 := congrArg Prod.fst h
        have h2 : v = v0 := congrArg Prod.snd h
        subst h1
        subst h2
        rw [lookupA, if_pos rfl]
      · have hkmem : k ∈ mapKeys rest := mem_mapKeys_of_mem rest k v h
        have hne : k0 ≠ k := fun he => hnd0 (he ▸ hkmem)
        rw [lookupA, if_neg hne]
        exact ih hnd' h

theorem toolIdsOf_append (a b : List StreamingGroup) :
    toolIdsOf (a ++ b) = toolIdsOf a ++ toolIdsOf b := by
  induction a with
  | nil => simp [toolIdsOf]
  | cons g rest ih =>
      cases g with
      | content t i => simp [toolIdsOf, ih]
      | tool tc i => simp [toolIdsOf, ih]

theorem toolIdsOf_set_tool (gs : List StreamingGroup) (p : Nat) (tc tc' : ToolCallEntry)
    (idx idx' : Nat) (h : gs[p]? = some (StreamingGroup.tool tc idx))
    (hid : tc'.tool_id = tc.tool_id) :
    toolIdsOf (gs.set p (StreamingGroup.tool tc' idx')) = toolIdsOf gs := by
  induction gs generalizing p with
  | nil => simp at h
  | cons g rest ih =>
      cases p with
      | zero =>
          simp only [List.getElem?_cons_zero, Option.some.injEq] at h
          subst h
          simp [List.set, toolIdsOf, hid]
      | succ q =>
          simp only [List.getElem?_cons_succ] at h
          cases g with
          | content t i => simp [List.set, toolIdsOf, ih q h]
          | tool tc0 i => simp [List.set, toolIdsOf, ih q h]

theorem processStep_good (s : AggState) (r : StreamingResponse)
    (next : Option StreamingResponse) (h : GoodState s) :
    GoodState (processStep s r next)
    ∧ mapKeys (processStep s r next).toolCallsMap
        = (match toolEventId r with
           | some tid => insertNewKey (mapKeys s.toolCallsMap) tid
           | none => mapKeys s.toolCallsMap)
    ∧ ∀ i, i < s.groups.length →
        ((processStep s r next).groups[i]?).map groupShape
          = (s.groups[i]?).map groupShape := by
  obtain ⟨hpos, hids, hkeys, hnd⟩ := h
  unfold processStep
  by_cases hc : r.entry_type = "Content" ∧ strTruthy r.content = true
  · rw [if_pos hc]
    have htev : toolEventId r = none := by simp [toolEventId, hc.1]
    by_cases hf : isFlushPoint next
    · rw [if_pos hf]
      by_cases hb : jsTrim (s.currentContentChunk ++ r.content.getD "") ≠ ""
      · rw [if_pos hb]
        refine ⟨⟨?_, ?_, hkeys, hnd⟩, by rw [htev], ?_⟩
        · intro kp hkp
          obtain ⟨e, he1, he2, he3⟩ := hpos kp hkp
          refine ⟨e, he1, ?_, he3⟩
          have hlt : kp.2 < s.groups.length := by
            rw [← getElemOpt_isSome_iff]
            simp [he2]
          rw [getElemOpt_append_left _ _ _ hlt]
          exact he2
        · rw [toolIdsOf_append]
          simpa [toolIdsOf] using hids
        · intro i hi
          rw [getElemOpt_append_left _ _ _ hi]
      · rw [if_neg hb]
        exact ⟨⟨hpos, hids, hkeys, hnd⟩, by rw [htev], fun i hi => rfl⟩
    · rw [if_neg hf]
      exact ⟨⟨hpos, hids, hkeys, hnd⟩, by rw [htev], fun i hi => rfl⟩
  · rw [if_neg hc]
    cases htc : r.tool_call with
    | none =>
        have htev : toolEventId r = none := by simp [toolEventId, htc]
        exact ⟨⟨hpos, hids, hkeys, hnd⟩, by rw [htev], fun i hi => rfl⟩
    | some tc =>
        dsimp only
        by_cases h1 : r.entry_type ≠ "Content"
        · rw [if_pos h1]
          have htev : toolEventId r = some tc.tool_id := by
            simp [toolEventId, h1, htc]
          cases hex : lookupA s.toolCallsMap tc.tool_id with
          | none =>
              dsimp only
              have hnotin : tc.tool_id ∉ mapKeys s.toolCallsMap := by
                rw [← lookupA_isSome_iff]
                simp [hex]
              have hnotinPos : tc.tool_id ∉ mapKeys s.toolCallPositions := by
                rw [hkeys]; exact hnotin
              have hposNone : lookupA s.toolCallPositions tc.tool_id = none := by
                cases hlp : lookupA s.toolCallPositions tc.tool_id with
                | none => rfl
                | some p =>
                    exact absurd ((lookupA_isSome_iff _ _).mp (by simp [hlp])) hnotinPos
              have hmap := mapSet_eq_append s.toolCallsMap tc.tool_id (mergedToolCall tc none) hex
              have hposSet := mapSet_eq_append s.toolCallPositions tc.tool_id
                s.groups.length hposNone
              refine ⟨⟨?_, ?_, ?_, ?_⟩, ?_, ?_⟩
              · intro kp hkp
                rw [hposSet, List.mem_append] at hkp
                rcases hkp with hkp | hkp
                · obtain ⟨e, he1, he2, he3⟩ := hpos kp hkp
                  have hne : tc.tool_id ≠ kp.1 := by
                    intro heq
                    rw [← heq, hex] at he1
                    exact Option.noConfusion he1
                  refine ⟨e, ?_, ?_, he3⟩
                  · rw [lookupA_mapSet, if_neg hne]
                    exact he1
                  · have hlt : kp.2 < s.groups.length := by
                      rw [← getElemOpt_isSome_iff]
                      simp [he2]
                    rw [getElemOpt_append_left _ _ _ hlt]
                    exact he2
                · have hkp' : kp = (tc.tool_id, s.groups.length) := by simpa using hkp
                  subst hkp'
                  refine ⟨mergedToolCall tc none, ?_, ?_, rfl⟩
                  · rw [lookupA_mapSet, if_pos rfl]
                  · exact List.getElem?_concat_length _ _
              · rw [toolIdsOf_append, hmap, mapKeys_append, hids]
                rfl
              · rw [hposSet, hmap, mapKeys_append, mapKeys_append, hkeys]
                rfl
              · rw [hposSet, mapKeys_append]
                simp [List.nodup_append, hnd, hnotinPos, mapKeys]
              · rw [htev, hmap, mapKeys_append]
                show _ = insertNewKey (mapKeys s.toolCallsMap) tc.tool_id
                rw [insertNewKey, if_neg hnotin]
                rfl
              · intro i hi
                rw [getElemOpt_append_left _ _ _ hi]
          | some e =>
              dsimp only
              have hin : tc.tool_id ∈ mapKeys s.toolCallsMap :=
                (lookupA_isSome_iff _ _).mp (by simp [hex])
              have hinPos : tc.tool_id ∈ mapKeys s.toolCallPositions := by
                rw [hkeys]; exact hin
              obtain ⟨p, hp⟩ := Option.isSome_iff_exists.mp
                ((lookupA_isSome_iff _ _).mpr hinPos)
              have hkpmem : (tc.tool_id, p) ∈ s.toolCallPositions := lookupA_mem _ _ _ hp
              obtain ⟨e', he1, he2, he3⟩ := hpos _ hkpmem
              have hee : e = e' := Option.some.inj (hex.symm.trans he1)
              subst hee
              have hplt : p < s.groups.length := by
                rw [← getElemOpt_isSome_iff]
                simp [he2]
              have hupd : updateGroupAt s.groups (lookupA s.toolCallPositions tc.tool_id)
                  (mergedToolCall tc (some e))
                  = s.groups.set p (StreamingGroup.tool (mergedToolCall tc (some e)) p) := by
                rw [hp]
                simp [updateGroupAt, he2]
              refine ⟨⟨?_, ?_, ?_, hnd⟩, ?_, ?_⟩
              · intro kp hkp
                obtain ⟨ek, hk1, hk2, hk3⟩ := hpos kp hkp
                by_cases hkid : tc.tool_id = kp.1
                · have hkp' : (kp.1, kp.2) ∈ s.toolCallPositions := by
                    rw [Prod.mk.eta]; exact hkp
                  have hlk : lookupA s.toolCallPositions kp.1 = some kp.2 :=
                    lookupA_eq_of_mem_nodup _ _ _ hnd hkp'
                  rw [← hkid, hp] at hlk
                  have hkp2 : kp.2 = p := (Option.some.inj hlk).symm
                  refine ⟨mergedToolCall tc (some e), ?_, ?_, ?_⟩
                  · rw [lookupA_mapSet, if_pos hkid]
                  · rw [hupd, hkp2]
                    simp [List.getElem?_set_self', List.getElem?_eq_getElem hplt]
                  · rw [← hkid]; rfl
                · have hk2ne : p ≠ kp.2 := by
                    intro heq
                    rw [← heq] at hk2
                    rw [he2] at hk2
                    have hek : e = ek := by
                      have := Option.some.inj hk2
                      cases this
                      rfl
                    exact hkid (by rw [← hk3, ← hek, he3])
                  refine ⟨ek, ?_, ?_, hk3⟩
                  · rw [lookupA_mapSet, if_neg hkid]
                    exact hk1
                  · rw [hupd, List.getElem?_set_ne hk2ne]
                    exact hk2
              · rw [hupd]
                rw [toolIdsOf_set_tool s.groups p e (mergedToolCall tc (some e)) p p he2
                  (by rw [he3]; rfl)]
                rw [hids, mapKeys_mapSet_some _ _ _ _ hex]
              · rw [mapKeys_mapSet_some _ _ _ _ hex]
                exact hkeys
              · rw [htev, mapKeys_mapSet_some _ _ _ _ hex]
                show _ = insertNewKey (mapKeys s.toolCallsMap) tc.tool_id
                rw [insertNewKey, if_pos hin]
              · intro i hi
                rw [hupd]
                by_cases hip : p = i
                · subst hip
                  rw [List.getElem?_eq_getElem hplt] at he2 ⊢
                  have he2' : s.groups[p] = StreamingGroup.tool e p := Option.some.inj he2
                  rw [show (s.groups.set p (StreamingGroup.tool (mergedToolCall tc (some e)) p))[p]?
                      = some (StreamingGroup.tool (mergedToolCall tc (some e)) p) by
                    simp [List.getElem?_set_self', List.getElem?_eq_getElem hplt]]
                  rw [he2']
                  show some (true, (mergedToolCall tc (some e)).tool_id, p)
                    = some (true, e.tool_id, p)
                  rw [he3]
                  rfl
                · rw [List.getElem?_set_ne hip]
        · rw [if_neg h1]
          have h1' : r.entry_type = "Content" := by simpa using h1
          have htev : toolEventId r = none := by simp [toolEventId, h1']
          exact ⟨⟨hpos, hids, hkeys, hnd⟩, by rw [htev], fun i hi => rfl⟩

theorem processLoop_good (data : List StreamingResponse) : ∀ s : AggState, GoodState s →
    GoodState (processLoop s data)
    ∧ mapKeys (processLoop s data).toolCallsMap
        = (data.filterMap toolEventId).foldl insertNewKey (mapKeys s.toolCallsMap)
    ∧ ∀ i, i < s.groups.length →
        ((processLoop s data).groups[i]?).map groupShape
          = (s.groups[i]?).map groupShape := by
  induction data with
  | nil => intro s hs; exact ⟨hs, rfl, fun i hi => rfl⟩
  | cons r rest ih =>
      intro s hs
      obtain ⟨hg1, hg2, hg3⟩ := processStep_good s r rest.head? hs
      obtain ⟨hl1, hl2, hl3⟩ := ih (processStep s r rest.head?) hg1
      refine ⟨hl1, ?_, ?_⟩
      · show mapKeys (processLoop (processStep s r rest.head?) rest).toolCallsMap = _
        rw [hl2, hg2]
        cases htev : toolEventId r with
        | none => simp [List.filterMap_cons, htev]
        | some tid => simp [List.filterMap_cons, htev]
      · intro i hi
        have hi' : i < (processStep s r rest.head?).groups.length := by
          rw [← getElemOpt_isSome_iff]
          have hsh := hg3 i hi
          have hsome : (s.groups[i]?).isSome := by
            rw [getElemOpt_isSome_iff]; exact hi
          cases hx : (processStep s r rest.head?).groups[i]? with
          | none =>
              rw [hx] at hsh
              cases hy : s.groups[i]? with
              | none => rw [hy] at hsome; simp at hsome
              | some g => rw [hy] at hsh; simp at hsh
          | some g => simp
        exact (hl3 i hi').trans (hg3 i hi)

/-- C2: every tool id occurring in the events gets exactly one tool group,
in first-appearance order (the output's tool ids are exactly the distinct
event tool ids, first appearance first, hence without duplicates), and
consuming further events never changes the identity — constructor, text or
tool id, and index — of any group already present in a well-formed loop
state: tool groups are updated in place, never moved. -/
theorem tool_groups_unique_ordered (data : List StreamingResponse) (s : AggState)
    (hs : GoodState s) :
    toolIdsOf (processStreamingData data) = firstOccurrences (data.filterMap toolEventId)
    ∧ (toolIdsOf (processStreamingData data)).Nodup
    ∧ ∀ i, i < s.groups.length →
        ((processLoop s data).groups[i]?).map groupShape
          = (s.groups[i]?).map groupShape := by
  have hinit : GoodState initState :=
    ⟨fun kp h => absurd h (List.not_mem_nil kp), rfl, rfl, List.nodup_nil⟩
  obtain ⟨⟨hg1, hg2, hg3, hg4⟩, hk, _⟩ := processLoop_good data initState hinit
  refine ⟨?_, ?_, (processLoop_good data s hs).2.2⟩
  · show toolIdsOf (processLoop initState data).groups = _
    rw [hg2, hk]
    rfl
  · show (toolIdsOf (processLoop initState data).groups).Nodup
    rw [hg2, ← hg3]
    exact hg4

/-- Witness for C2: two updates of tool "1" then one of tool "2" produce
tool groups ["1", "2"], in first-appearance order and without
duplicates. -/
theorem tool_groups_unique_ordered_witness :
    GoodState initState
    ∧ toolIdsOf (processStreamingData
        [⟨"ToolCall", none, some ⟨"1", none, none, some "Starting"⟩⟩,
         ⟨"ToolCall", none, some ⟨"1", none, none, some "Success"⟩⟩,
         ⟨"ToolCall", none, some ⟨"2", none, none, some "Starting"⟩⟩])
      = firstOccurrences
          ([⟨"ToolCall", none, some ⟨"1", none, none, some "Starting"⟩⟩,
            ⟨"ToolCall", none, some ⟨"1", none, none, some "Success"⟩⟩,
            (⟨"ToolCall", none, some ⟨"2", none, none, some "Starting"⟩⟩ :
              StreamingResponse)].filterMap toolEventId)
    ∧ (toolIdsOf (processStreamingData
        [⟨"ToolCall", none, some ⟨"1", none, none, some "Starting"⟩⟩,
         ⟨"ToolCall", none, some ⟨"1", none, none, some "Success"⟩⟩,
         ⟨"ToolCall", none, some ⟨"2", none, none, some "Starting"⟩⟩])).Nodup :=
  ⟨⟨fun kp h => absurd h (List.not_mem_nil kp), rfl, rfl, List.nodup_nil⟩,
   (tool_groups_unique_ordered
      [⟨"ToolCall", none, some ⟨"1", none, none, some "Starting"⟩⟩,
       ⟨"ToolCall", none, some ⟨"1", none, none, some "Success"⟩⟩,
       ⟨"ToolCall", none, some ⟨"2", none, none, some "Starting"⟩⟩] initState
      ⟨fun kp h => absurd h (List.not_mem_nil kp), rfl, rfl, List.nodup_nil⟩).1,
   (tool_groups_unique_ordered
      [⟨"ToolCall", none, some ⟨"1", none, none, some "Starting"⟩⟩,
       ⟨"ToolCall", none, some ⟨"1", none, none, some "Success"⟩⟩,
       ⟨"ToolCall", none, some ⟨"2", none, none, some "Starting"⟩⟩] initState
      ⟨fun kp h => absurd h (List.not_mem_nil kp), rfl, rfl, List.nodup_nil⟩).2.1⟩

/-- `WorkshopMessage` as consulted by the message-tree operations of the
chat route: only `message_id` and `parent_message_id` matter to the tree
and path computations; the remaining fields (message text, sender role,
model, timestamps) do not influence them and are omitted. -/
structure Message where
  message_id : String
  parent_message_id : Option String
deriving Repr, DecidableEq

/-- Lookup of a message by id — the `messageMap.get` of the source. The
collection is assumed to carry distinct ids; the first match is the
entry. -/
def lookupMsg (msgs : List Message) (id : String) : Option Message :=
  msgs.find? (fun m => m.message_id = id)

/-- Modelled from the spec: the root rule of `buildMessageTree` (file
`util/messageTree` is absent from the source tree) — a node whose
`parent_message_id` is null or references an id missing from the index
becomes a root. -/
def isRootMsg (msgs : List Message) (m : Message) : Bool :=
  match m.parent_message_id with
  | none => true
  | some pid => (lookupMsg msgs pid).isNone

/-- Modelled from the spec: the root ids of the built forest, in supply
order. -/
def rootsOf (msgs : List Message) : List String :=
  (msgs.filter (isRootMsg msgs)).map Message.message_id

/-- Modelled from the spec: the child rule of `buildMessageTree` — a node
is appended to the child list of the node its `parent_message_id`
references; children keep supply order. -/
def childrenOf (msgs : List Message) (pid : String) : List String :=
  (msgs.filter (fun m => m.parent_message_id = some pid)).map Message.message_id

/-- Branch key of a Path entry: a parent message id, or the sentinel root
slot. -/
inductive PathKey where
  | root
  | parent (id : String)
deriving Repr, DecidableEq

/-- A Path (`MessagePath` of the source): mapping from branch keys to
selected child ids. -/
abbrev MessagePath := List (PathKey × String)

/-- Lookup of a branch key in a Path. -/
def pathLookup : MessagePath → PathKey → Option String
  | [], _ => none
  | (k', v) :: rest, k => if k' = k then some v else pathLookup rest k

/-- Modelled from the spec: the upward walk of `buildPathToMessage` — from
the target up to its root, recording for every step the entry
(parent id ↦ current id); a step whose parent is absent from the index
stops the walk (that node is a root). The walk is fuelled by the message
count; acyclic data never exhausts the fuel. -/
def buildPathSteps (msgs : List Message) : Nat → String → MessagePath
  | 0, _ => []
  | fuel + 1, currentId =>
      match lookupMsg msgs currentId with
      | none => []
      | some m =>
          match m.parent_message_id with
          | none => []
          | some pid =>
              match lookupMsg msgs pid with
              | none => []
              | some _ => (PathKey.parent pid, currentId) :: buildPathSteps msgs fuel pid

/-- From `ChatWithSidebar` in `$chatId.tsx`: the while-loop tracing a
message back through parents present in the map to find the root whose id
is stored under the Path's root key. Fuelled by the message count. -/
def traceRootId (msgs : List Message) : Nat → Message → String
  | 0, m => m.message_id
  | fuel + 1, m =>
      match m.parent_message_id with
      | none => m.message_id
      | some pid =>
          match lookupMsg msgs pid with
          | none => m.message_id
          | some parent => traceRootId msgs fuel parent

/-- From `ChatWithSidebar`, composed with the spec-modelled
`buildPathToMessage`: restore the active branch for a target message by
recording the parent-chain entries and pointing the root key at the
traced root. A target absent from the index yields the empty path. -/
def initializeFromTarget (msgs : List Message) (targetId : String) : MessagePath :=
  match lookupMsg msgs targetId with
  | none => []
  | some target =>
      buildPathSteps msgs msgs.length targetId
        ++ [(PathKey.root, traceRootId msgs msgs.length target)]

/-- Modelled from the spec: the descent of `getVisiblePath` — at each node
follow the Path's selected child while that child still exists among the
node's children, else stop. -/
def descendPath (msgs : List Message) (path : MessagePath) : Nat → Message → List Message
  | 0, m => [m]
  | fuel + 1, m =>
      match pathLookup path (PathKey.parent m.message_id) with
      | none => [m]
      | some childId =>
          if childId ∈ childrenOf msgs m.message_id then
            match lookupMsg msgs childId with
            | none => [m]
            | some c => m :: descendPath msgs path fuel c
          else [m]

/-- Modelled from the spec: `getVisiblePath` — start at the root selected
by the Path's root entry (or the first root when unset or invalid) and
descend along the selected children; an empty forest yields the empty
sequence. -/
def getVisiblePath (msgs : List Message) (path : MessagePath) : List Message :=
  match
    (match pathLookup path PathKey.root with
     | some rid => if rid ∈ rootsOf msgs then some rid else (rootsOf msgs).head?
     | none => (rootsOf msgs).head?)
  with
  | none => []
  | some rid =>
      match lookupMsg msgs rid with
      | none => []
      | some m => descendPath msgs path msgs.length m

/-- Ancestor chain of a message: the messages from it up to its root, each
step following a parent present in the index, the last element having no
parent in the index. -/
inductive ChainUp (msgs : List Message) : Message → List Message → Prop where
  | root (m : Message)
      (hroot : ∀ pid, m.parent_message_id = some pid → lookupMsg msgs pid = none) :
      ChainUp msgs m [m]
  | step (m : Message) (pid : String) (p : Message) (c : List Message)
      (hpid : m.parent_message_id = some pid) (hp : lookupMsg msgs pid = some p)
      (hc : ChainUp msgs p c) : ChainUp msgs m (m :: c)

theorem lookupMsg_id (msgs : List Message) (id : String) (m : Message)
    (h : lookupMsg msgs id = some m) : m.message_id = id := by
  have := List.find?_some h
  simpa using this

theorem lookupMsg_mem (msgs : List Message) (id : String) (m : Message)
    (h : lookupMsg msgs id = some m) : m ∈ msgs :=
  List.mem_of_find?_eq_some h

theorem lookupMsg_self (msgs : List Message) (m : Message)
    (hnd : (msgs.map Message.message_id).Nodup) (hm : m ∈ msgs) :
    lookupMsg msgs m.message_id = some m := by
  induction msgs with
  | nil => simp at hm
  | cons x rest ih =>
      have hnd' : (rest.map Message.message_id).Nodup :=
        (List.nodup_cons.mp (by simpa using hnd)).2
      rcases List.mem_cons.mp hm with h | h
      · subst h
        simp [lookupMsg]
      · have hne : ¬ (x.message_id = m.message_id) := by
          intro he
          have hmem : m.message_id ∈ rest.map Message.message_id :=
            List.mem_map_of_mem _ h
          have hx : x.message_id ∉ rest.map Message.message_id :=
            (List.nodup_cons.mp (by simpa using hnd)).1
          exact hx (he ▸ hmem)
        rw [lookupMsg, List.find?_cons_of_neg _ (by simpa using hne)]
        exact ih hnd' h

/-- Path entries recorded for an id chain: (parent ↦ child) for each
consecutive pair. -/
def pathStepsOf : List String → MessagePath
  | x :: y :: rest => (PathKey.parent y, x) :: pathStepsOf (y :: rest)
  | _ => []

/-- Adjacent pairs of a list, in order. -/
def adjPairsOf : List Message → List (Message × Message)
  | a :: b :: rest => (a, b) :: adjPairsOf (b :: rest)
  | _ => []

/-- Conditions letting `descendPath` walk a list front to back: each
element selects the next via the path, the next is among its children,
and the next resolves in the index. -/
def SpinePairs (msgs : List Message) (P : MessagePath) : List Message → Prop
  | a :: b :: rest =>
      pathLookup P (PathKey.parent a.message_id) = some b.message_id
      ∧ b.message_id ∈ childrenOf msgs a.message_id
      ∧ lookupMsg msgs b.message_id = some b
      ∧ SpinePairs msgs P (b :: rest)
  | _ => True

theorem pathLookup_steps_adj (c0 : List Message) (P0 : MessagePath)
    (hnd : (c0.map Message.message_id).Nodup) :
    ∀ ab ∈ adjPairsOf c0,
      pathLookup (pathStepsOf (c0.map Message.message_id) ++ P0)
        (PathKey.parent ab.2.message_id) = some ab.1.message_id := by
  induction c0 with
  | nil => intro ab hab; simp [adjPairsOf] at hab
  | cons a rest ih =>
      cases rest with
      | nil => intro ab hab; simp [adjPairsOf] at hab
      | cons b rest' =>
          intro ab hab
          have hsnd : ∀ p ∈ adjPairsOf (b :: rest'), p.2 ∈ rest' := by
            clear hab ih hnd
            induction rest' generalizing b with
            | nil => intro p hp; simp [adjPairsOf] at hp
            | cons y ys ihy =>
                intro p hp
                rcases List.mem_cons.mp hp with hp | hp
                · subst hp; simp
                · exact List.mem_cons_of_mem _ (ihy y p hp)
          rcases List.mem_cons.mp hab with hab | hab
          · subst hab
            show pathLookup ((PathKey.parent b.message_id, a.message_id) :: _) _ = _
            rw [pathLookup, if_pos rfl]
          · have hmem : ab.2 ∈ rest' := hsnd ab hab
            have hbne : ¬ (PathKey.parent b.message_id
                = PathKey.parent ab.2.message_id) := by
              intro he
              have hid : b.message_id = ab.2.message_id := by
                injection he
              have hb : b.message_id ∉ rest'.map Message.message_id :=
                (List.nodup_cons.mp ((List.nodup_cons.mp (by simpa using hnd)).2)).1
              exact hb (hid ▸ List.mem_map_of_mem _ hmem)
            show pathLookup ((PathKey.parent b.message_id, a.message_id) :: _) _ = _
            rw [pathLookup, if_neg hbne]
            exact ih (by exact (List.nodup_cons.mp (by simpa using hnd)).2) ab hab

theorem pathLookup_steps_none (l : List String) (x : String) (rid : String)
    (hx : x ∉ l.tail) :
    pathLookup (pathStepsOf l ++ [(PathKey.root, rid)]) (PathKey.parent x) = none := by
  induction l with
  | nil => simp [pathStepsOf, pathLookup]
  | cons a rest ih =>
      cases rest with
      | nil => simp [pathStepsOf, pathLookup]
      | cons b rest' =>
          have hxb : ¬ (PathKey.parent b = PathKey.parent x) := by
            intro he
            have : b = x := by injection he
            exact hx (this ▸ List.mem_cons_self b rest')
          show pathLookup ((PathKey.parent b, a) :: _) _ = none
          rw [pathLookup, if_neg hxb]
          have hx' : x ∉ (b :: rest').tail := by
            intro hmem
            exact hx (List.mem_cons_of_mem _ hmem)
          exact ih hx'

theorem pathLookup_steps_root (l : List String) (rid : String) :
    pathLookup (pathStepsOf l ++ [(PathKey.root, rid)]) PathKey.root = some rid := by
  induction l with
  | nil => simp [pathStepsOf, pathLookup]
  | cons a rest ih =>
      cases rest with
      | nil => simp [pathStepsOf, pathLookup]
      | cons b rest' =>
          show pathLookup ((PathKey.parent b, a) :: _) _ = some rid
          rw [pathLookup, if_neg (by intro he; exact PathKey.noConfusion he)]
          exact ih

theorem descend_of_spine (msgs : List Message) (P : MessagePath) :
    ∀ (d : List Message) (a : Message), SpinePairs msgs P (a :: d) →
    (∀ x, (a :: d).getLast? = some x →
        pathLookup P (PathKey.parent x.message_id) = none) →
    ∀ fuel, d.length ≤ fuel → descendPath msgs P fuel a = a :: d := by
  intro d
  induction d with
  | nil =>
      intro a _ hlast fuel _
      have hnone := hlast a rfl
      cases fuel with
      | zero => rfl
      | succ f =>
          rw [descendPath, hnone]
  | cons b rest ih =>
      intro a hsp hlast fuel hf
      obtain ⟨h1, h2, h3, h4⟩ := hsp
      cases fuel with
      | zero => simp at hf
      | succ f =>
          rw [descendPath, h1]
          dsimp only
          rw [if_pos h2, h3]
          dsimp only
          have hlast' : ∀ x, (b :: rest).getLast? = some x →
              pathLookup P (PathKey.parent x.message_id) = none := by
            intro x hx
            apply hlast
            rw [List.getLast?_cons_cons]
            exact hx
          rw [ih b h4 hlast' f (by simpa using Nat.le_of_succ_le_succ hf)]

theorem spinePairs_append (msgs : List Message) (P : MessagePath) :
    ∀ (d : List Message) (a b : Message), SpinePairs msgs P (d ++ [a]) →
    pathLookup P (PathKey.parent a.message_id) = some b.message_id →
    b.message_id ∈ childrenOf msgs a.message_id →
    lookupMsg msgs b.message_id = some b →
    SpinePairs msgs P (d ++ [a, b]) := by
  intro d
  induction d with
  | nil =>
      intro a b _ h2 h3 h4
      exact ⟨h2, h3, h4, trivial⟩
  | cons x rest ih =>
      intro a b h1 h2 h3 h4
      cases hr : rest with
      | nil =>
          subst hr
          obtain ⟨l1, l2, l3, _⟩ := h1
          exact ⟨l1, l2, l3, h2, h3, h4, trivial⟩
      | cons y rest' =>
          subst hr
          obtain ⟨l1, l2, l3, ltail⟩ := h1
          exact ⟨l1, l2, l3, ih a b ltail h2 h3 h4⟩

theorem chain_head (msgs : List Message) (p : Message) (c : List Message)
    (h : ChainUp msgs p c) : ∃ c', c = p :: c' := by
  cases h with
  | root _ _ => exact ⟨[], rfl⟩
  | step _ _ _ c0 _ _ _ => exact ⟨c0, rfl⟩

theorem chain_subset (msgs : List Message) :
    ∀ m c, ChainUp msgs m c → m ∈ msgs → ∀ x ∈ c, x ∈ msgs := by
  intro m c h
  induction h with
  | root m _ =>
      intro hm x hx
      rcases List.mem_cons.mp hx with hx | hx
      · exact hx ▸ hm
      · simp at hx
  | step m pid p c _ hp _ ih =>
      intro hm x hx
      rcases List.mem_cons.mp hx with hx | hx
      · exact hx ▸ hm
      · exact ih (lookupMsg_mem _ _ _ hp) x hx

theorem chain_adj_facts (msgs : List Message) :
    ∀ m c, ChainUp msgs m c → m ∈ msgs →
    ∀ ab ∈ adjPairsOf c,
      ab.1 ∈ msgs ∧ ab.1.parent_message_id = some ab.2.message_id := by
  intro m c h
  induction h with
  | root m _ =>
      intro _ ab hab
      simp [adjPairsOf] at hab
  | step m pid p c hpid hp hc ih =>
      intro hm ab hab
      obtain ⟨c', rfl⟩ := chain_head msgs p c hc
      rcases List.mem_cons.mp hab with hab | hab
      · subst hab
        exact ⟨hm, by rw [hpid, lookupMsg_id _ _ _ hp]⟩
      · exact ih (lookupMsg_mem _ _ _ hp) ab hab

theorem chain_last (msgs : List Message) :
    ∀ m c, ChainUp msgs m c → m ∈ msgs →
    ∃ r : Message, c.getLast? = some r ∧ r ∈ msgs
      ∧ (∀ pid, r.parent_message_id = some pid → lookupMsg msgs pid = none) := by
  intro m c h
  induction h with
  | root m hroot => intro hm; exact ⟨m, rfl, hm, hroot⟩
  | step m pid p c hpid hp hc ih =>
      intro hm
      obtain ⟨r, hr1, hr2, hr3⟩ := ih (lookupMsg_mem _ _ _ hp)
      obtain ⟨c', rfl⟩ := chain_head msgs p c hc
      exact ⟨r, by rw [List.getLast?_cons_cons]; exact hr1, hr2, hr3⟩

theorem traceRootId_of_chain (msgs : List Message) :
    ∀ m c, ChainUp msgs m c →
    ∀ fuel, c.length ≤ fuel + 1 →
    ∀ r, c.getLast? = some r → traceRootId msgs fuel m = r.message_id := by
  intro m c h
  induction h with
  | root m hroot =>
      intro fuel _ r hr
      have hrm : r = m := by simpa using hr.symm
      subst hrm
      cases fuel with
      | zero => rfl
      | succ f =>
          rw [traceRootId]
          cases hpid : r.parent_message_id with
          | none => rfl
          | some pid =>
              dsimp only
              rw [hroot pid hpid]
  | step m pid p c hpid hp hc ih =>
      intro fuel hf r hr
      obtain ⟨c', rfl⟩ := chain_head msgs p c hc
      cases fuel with
      | zero => simp at hf
      | succ f =>
          rw [traceRootId, hpid]
          dsimp only
          rw [hp]
          exact ih f (by simpa using Nat.le_of_succ_le_succ hf) r
            (by rw [← hr, List.getLast?_cons_cons])

theorem buildPathSteps_of_chain (msgs : List Message) :
    ∀ m c, ChainUp msgs m c → lookupMsg msgs m.message_id = some m →
    ∀ fuel, c.length ≤ fuel →
    buildPathSteps msgs fuel m.message_id = pathStepsOf (c.map Message.message_id) := by
  intro m c h
  induction h with
  | root m hroot =>
      intro hm fuel hf
      cases fuel with
      | zero => simp at hf
      | succ f =>
          rw [buildPathSteps, hm]
          dsimp only
          cases hpid : m.parent_message_id with
          | none => rfl
          | some pid =>
              dsimp only
              rw [hroot pid hpid]
              rfl
  | step m pid p c hpid hp hc ih =>
      intro hm fuel hf
      obtain ⟨c', rfl⟩ := chain_head msgs p c hc
      cases fuel with
      | zero => simp at hf
      | succ f =>
          rw [buildPathSteps, hm]
          dsimp only
          rw [hpid]
          dsimp only
          rw [hp]
          have hpidp : p.message_id = pid := lookupMsg_id _ _ _ hp
          have hpm : lookupMsg msgs p.message_id = some p := by rw [hpidp]; exact hp
          have ihp := ih hpm f (by simpa using Nat.le_of_succ_le_succ hf)
          show (PathKey.parent pid, m.message_id) :: buildPathSteps msgs f pid
            = (PathKey.parent p.message_id, m.message_id)
              :: pathStepsOf (p.message_id :: c'.map Message.message_id)
          rw [← hpidp, ihp]
          rfl

theorem chain_spine (msgs : List Message) (P : MessagePath)
    (hnd : (msgs.map Message.message_id).Nodup) :
    ∀ m c, ChainUp msgs m c → m ∈ msgs →
    (∀ ab ∈ adjPairsOf c,
        pathLookup P (PathKey.parent ab.2.message_id) = some ab.1.message_id) →
    SpinePairs msgs P c.reverse := by
  intro m c h
  induction h with
  | root m _ =>
      intro _ _
      show SpinePairs msgs P [m]
      trivial
  | step m pid p c hpid hp hc ih =>
      intro hm hadj
      obtain ⟨c', rfl⟩ := chain_head msgs p c hc
      have hsp : SpinePairs msgs P (p :: c').reverse :=
        ih (lookupMsg_mem _ _ _ hp) (fun ab hab => hadj ab (List.mem_cons_of_mem _ hab))
      have h2 : pathLookup P (PathKey.parent p.message_id) = some m.message_id := by
        have := hadj (m, p) (List.mem_cons_self _ _)
        simpa using this
      have hpidp : p.message_id = pid := lookupMsg_id _ _ _ hp
      have h3 : m.message_id ∈ childrenOf msgs p.message_id := by
        have hmem : m ∈ msgs.filter (fun x => x.parent_message_id = some p.message_id) :=
          List.mem_filter.mpr ⟨hm, by simp [hpid, hpidp]⟩
        exact List.mem_map_of_mem _ hmem
      have h4 : lookupMsg msgs m.message_id = some m := lookupMsg_self msgs m hnd hm
      rw [List.reverse_cons] at hsp
      have hout : SpinePairs msgs P (c'.reverse ++ [p, m]) :=
        spinePairs_append msgs P c'.reverse p m hsp h2 h3 h4
      rw [List.reverse_cons, List.reverse_cons]
      rw [List.append_assoc]
      exact hout

/-- C8: for a message m present in the forest with an acyclic ancestor
chain, the visible path computed from the restored Path is exactly that
chain from the root down, so it is a linear sequence ending at the node of
m; the Path records a (parent ↦ chosen child) entry per step plus a root
entry naming the discovered root. -/
theorem path_restoration (msgs : List Message) (m : Message) (c : List Message)
    (hnd : (msgs.map Message.message_id).Nodup) (hm : m ∈ msgs)
    (hchain : ChainUp msgs m c) (hcnd : (c.map Message.message_id).Nodup) :
    getVisiblePath msgs (initializeFromTarget msgs m.message_id) = c.reverse
    ∧ (getVisiblePath msgs (initializeFromTarget msgs m.message_id)).getLast? = some m := by
  have hlm : lookupMsg msgs m.message_id = some m := lookupMsg_self msgs m hnd hm
  have hsub : ∀ x ∈ c, x ∈ msgs := chain_subset msgs m c hchain hm
  have hlen : c.length ≤ msgs.length := by
    have h2 : c.map Message.message_id ⊆ msgs.map Message.message_id := by
      intro x hx
      obtain ⟨y, hy, rfl⟩ := List.mem_map.mp hx
      exact List.mem_map_of_mem _ (hsub y hy)
    have h3 := (hcnd.subperm h2).length_le
    simpa using h3
  obtain ⟨r, hr1, hr2, hr3⟩ := chain_last msgs m c hchain hm
  have hrid : traceRootId msgs msgs.length m = r.message_id := by
    have h0 : 1 ≤ c.length := by
      obtain ⟨c', rfl⟩ := chain_head msgs m c hchain
      simp
    exact traceRootId_of_chain msgs m c hchain msgs.length (by omega) r hr1
  have hsteps : buildPathSteps msgs msgs.length m.message_id
      = pathStepsOf (c.map Message.message_id) :=
    buildPathSteps_of_chain msgs m c hchain hlm msgs.length hlen
  have hInit : initializeFromTarget msgs m.message_id
      = pathStepsOf (c.map Message.message_id) ++ [(PathKey.root, r.message_id)] := by
    rw [initializeFromTarget, hlm]
    dsimp only
    rw [hsteps, hrid]
  have hrootlook : pathLookup
      (pathStepsOf (c.map Message.message_id) ++ [(PathKey.root, r.message_id)])
      PathKey.root = some r.message_id := pathLookup_steps_root _ _
  have hrmem : r.message_id ∈ rootsOf msgs := by
    have hroot : isRootMsg msgs r = true := by
      rw [isRootMsg]
      cases hpid : r.parent_message_id with
      | none => rfl
      | some pid =>
          dsimp only
          rw [hr3 pid hpid]
          rfl
    exact List.mem_map_of_mem _ (List.mem_filter.mpr ⟨hr2, hroot⟩)
  have hlr : lookupMsg msgs r.message_id = some r := lookupMsg_self msgs r hnd hr2
  have hrevhead : c.reverse.head? = some r := by
    rw [List.head?_reverse]
    exact hr1
  obtain ⟨d, hd⟩ : ∃ d, c.reverse = r :: d := by
    cases hcr : c.reverse with
    | nil => rw [hcr] at hrevhead; simp at hrevhead
    | cons x xs =>
        rw [hcr] at hrevhead
        simp only [List.head?_cons, Option.some.injEq] at hrevhead
        exact ⟨xs, by rw [hrevhead]⟩
  have hadj : ∀ ab ∈ adjPairsOf c,
      pathLookup (pathStepsOf (c.map Message.message_id) ++ [(PathKey.root, r.message_id)])
        (PathKey.parent ab.2.message_id) = some ab.1.message_id :=
    pathLookup_steps_adj c [(PathKey.root, r.message_id)] hcnd
  have hspine := chain_spine msgs
    (pathStepsOf (c.map Message.message_id) ++ [(PathKey.root, r.message_id)])
    hnd m c hchain hm hadj
  obtain ⟨c', hc'⟩ := chain_head msgs m c hchain
  have hlastrev : c.reverse.getLast? = some m := by
    rw [List.getLast?_reverse, hc']
    rfl
  have hstop : ∀ x, c.reverse.getLast? = some x →
      pathLookup (pathStepsOf (c.map Message.message_id) ++ [(PathKey.root, r.message_id)])
        (PathKey.parent x.message_id) = none := by
    intro x hx
    have hxm : x = m := by
      rw [hlastrev] at hx
      exact (Option.some.inj hx).symm
    rw [hxm]
    apply pathLookup_steps_none
    rw [hc']
    have hnotin : m.message_id ∉ c'.map Message.message_id := by
      have h5 := hcnd
      rw [hc'] at h5
      exact (List.nodup_cons.mp (by simpa using h5)).1
    simpa using hnotin
  have hdlen : d.length ≤ msgs.length := by
    have h6 := congrArg List.length hd
    simp only [List.length_reverse, List.length_cons] at h6
    omega
  have hdesc : descendPath msgs
      (pathStepsOf (c.map Message.message_id) ++ [(PathKey.root, r.message_id)])
      msgs.length r = r :: d :=
    descend_of_spine msgs _ d r (by rw [← hd]; exact hspine) (by rw [← hd]; exact hstop)
      msgs.length hdlen
  have hvp : getVisiblePath msgs
      (pathStepsOf (c.map Message.message_id) ++ [(PathKey.root, r.message_id)])
      = c.reverse := by
    rw [getVisiblePath, hrootlook]
    dsimp only
    rw [if_pos hrmem]
    dsimp only
    rw [hlr]
    dsimp only
    rw [hdesc, hd]
  refine ⟨by rw [hInit, hvp], ?_⟩
  rw [hInit, hvp, hlastrev]

/-- Witness for C8: forest A ← B, target B; the restored visible path is
[A, B] and ends at B. -/
theorem path_restoration_witness :
    (([⟨"A", none⟩, ⟨"B", some "A"⟩] : List Message).map Message.message_id).Nodup
    ∧ (⟨"B", some "A"⟩ : Message) ∈ ([⟨"A", none⟩, ⟨"B", some "A"⟩] : List Message)
    ∧ getVisiblePath [⟨"A", none⟩, ⟨"B", some "A"⟩]
        (initializeFromTarget [⟨"A", none⟩, ⟨"B", some "A"⟩] "B")
      = [⟨"A", none⟩, ⟨"B", some "A"⟩]
    ∧ (getVisiblePath [⟨"A", none⟩, ⟨"B", some "A"⟩]
        (initializeFromTarget [⟨"A", none⟩, ⟨"B", some "A"⟩] "B")).getLast?
      = some ⟨"B", some "A"⟩ :=
  ⟨by decide, by decide,
   (path_restoration [⟨"A", none⟩, ⟨"B", some "A"⟩] ⟨"B", some "A"⟩
      [⟨"B", some "A"⟩, ⟨"A", none⟩] (by decide) (by decide)
      (ChainUp.step ⟨"B", some "A"⟩ "A" ⟨"A", none⟩ [⟨"A", none⟩] rfl (by decide)
        (ChainUp.root ⟨"A", none⟩ (fun pid h => nomatch h)))
      (by decide)).1,
   (path_restoration [⟨"A", none⟩, ⟨"B", some "A"⟩] ⟨"B", some "A"⟩
      [⟨"B", some "A"⟩, ⟨"A", none⟩] (by decide) (by decide)
      (ChainUp.step ⟨"B", some "A"⟩ "A" ⟨"A", none⟩ [⟨"A", none⟩] rfl (by decide)
        (ChainUp.root ⟨"A", none⟩ (fun pid h => nomatch h)))
      (by decide)).2⟩

/-- From `Chat` in `$chatId.tsx`: the last message of the currently
visible branch, falling back to the globally last chat message when the
visible path is empty. -/
def lastVisibleMessage (visibleMessages chatMessages : List Message) : Option Message :=
  if visibleMessages.length > 0 then visibleMessages.getLast? else chatMessages.getLast?

/-- From `onMessageSend` in `$chatId.tsx`: the parent id attached to an
outgoing message — the edited message's parent when editing, else the id
of the last visible message. -/
def onMessageSendParent (editingMessage : Option Message)
    (visibleMessages chatMessages : List Message) : Option String :=
  match editingMessage with
  | some e => e.parent_message_id
  | none => (lastVisibleMessage visibleMessages chatMessages).map Message.message_id

/-- C9: for a new (non-edit) send with a nonempty visible path, the
parent_message_id handed to the persistence collaborator is exactly the
message_id of the visible path's last node (and it is present). -/
theorem send_parent_is_last_visible (visibleMessages chatMessages : List Message)
    (h : visibleMessages ≠ []) :
    onMessageSendParent none visibleMessages chatMessages
      = visibleMessages.getLast?.map Message.message_id
    ∧ (onMessageSendParent none visibleMessages chatMessages).isSome = true := by
  have hpos : visibleMessages.length > 0 := List.length_pos.mpr h
  constructor
  · rw [onMessageSendParent, lastVisibleMessage, if_pos hpos]
  · rw [onMessageSendParent, lastVisibleMessage, if_pos hpos,
      List.getLast?_eq_getLast _ h]
    rfl

/-- Witness for C9: with visible path [A, B], the outgoing parent id is
B's id. -/
theorem send_parent_is_last_visible_witness :
    ([⟨"A", none⟩, ⟨"B", some "A"⟩] : List Message) ≠ []
    ∧ onMessageSendParent none [⟨"A", none⟩, ⟨"B", some "A"⟩] []
        = ([⟨"A", none⟩, ⟨"B", some "A"⟩] : List Message).getLast?.map Message.message_id
    ∧ (onMessageSendParent none [⟨"A", none⟩, ⟨"B", some "A"⟩] []).isSome = true :=
  ⟨by decide,
   (send_parent_is_last_visible [⟨"A", none⟩, ⟨"B", some "A"⟩] [] (by decide)).1,
   (send_parent_is_last_visible [⟨"A", none⟩, ⟨"B", some "A"⟩] [] (by decide)).2⟩

end EthereumForum
